import Mathlib

/-!
Verification of the BCD (binary-coded decimal) arithmetic library described
by `submit/prj2-sol/bcd.h`.

A BCD value is a fixed-width unsigned word of `W = 4 * D` bits holding `D`
decimal digits, one per 4-bit nibble, least-significant digit in the
least-significant nibble.  The header only declares the six public
operations (`binary_to_bcd`, `bcd_to_binary`, `str_to_bcd`, `bcd_to_str`,
`bcd_add`, `bcd_multiply`); their bodies are not part of the repository, so
each operation below is modelled from the specification's description of
its behaviour.  Machine words are embedded as `Nat` with the digit count
`D` passed explicitly; a word is well-formed when it is `< 16 ^ D`.
-/

/-- Error codes of the BCD API, mirroring the `BcdError` enum of `bcd.h`:
`OK_ERR` (no error), `BAD_VALUE_ERR` (a nibble exceeds 9), `OVERFLOW_ERR`
(an overflow was detected). -/
inductive BcdError where
  | OK_ERR
  | BAD_VALUE_ERR
  | OVERFLOW_ERR
deriving DecidableEq, Repr

open BcdError

/-- Nibble `i` (with `i = 0` the least significant) of a packed BCD word:
the digit-codec extraction, returning the raw nibble in `[0, 15]`. -/
def bcdDigit (b i : Nat) : Nat := b / 16 ^ i % 16

/-- A word is a valid `D`-digit BCD value when each of its `D` nibbles is
in `[0, 9]`. -/
def ValidBcd (D b : Nat) : Prop := ∀ i, i < D → bcdDigit b i ≤ 9

instance (D b : Nat) : Decidable (ValidBcd D b) :=
  inferInstanceAs (Decidable (∀ i, i < D → bcdDigit b i ≤ 9))

/-- Modelled from the spec: the packing loop of `binary_to_bcd` (its body,
`bcd.c`, is not in the repository) — repeatedly divide by 10, placing each
remainder digit into successive nibbles from least to most significant,
for `D` digits. -/
def toBcd : Nat → Nat → Nat
  | 0, _ => 0
  | k + 1, v => v % 10 + 16 * toBcd k (v / 10)

/-- Modelled from the spec: the accumulation loop of `bcd_to_binary` —
starting from `acc`, fold `acc = acc * 10 + digit` over nibbles
`k - 1, k - 2, …, 0` (most significant first). -/
def fromBcdGo (b : Nat) : Nat → Nat → Nat
  | 0, acc => acc
  | k + 1, acc => fromBcdGo b k (acc * 10 + bcdDigit b k)

/-- Decoded binary value of the low `D` nibbles of a BCD word, accumulated
most-significant-digit first as `bcd_to_binary` does. -/
def fromBcd (D b : Nat) : Nat := fromBcdGo b D 0

/-- Modelled from the spec: `binary_to_bcd(value, error)` (body not in the
repository).  Returns the BCD packing of `value` and, out of band, the
error report: `OVERFLOW_ERR` when `value` needs more than `D` decimal
digits (`value ≥ 10 ^ D`), otherwise no report (`*error` unchanged). -/
def binary_to_bcd (D v : Nat) : Nat × Option BcdError :=
  (toBcd D v, if 10 ^ D ≤ v then some OVERFLOW_ERR else none)

/-- Modelled from the spec: `bcd_to_binary(bcd, error)` (body not in the
repository).  Decodes the `D` nibbles most-significant first into a binary
accumulator (best effort even on bad digits) and reports `BAD_VALUE_ERR`
when some nibble exceeds 9. -/
def bcd_to_binary (D b : Nat) : Nat × Option BcdError :=
  (fromBcd D b, if ValidBcd D b then none else some BAD_VALUE_ERR)

/-- Modelled from the spec: the digit-wise addition loop of `bcd_add` —
from least to most significant nibble, `s = x_i + y_i + carry`; when
`s ≥ 10` emit digit `s - 10` with carry 1, else digit `s` with carry 0.
Returns the packed low `k` result digits and the final carry. -/
def bcdAddGo : Nat → Nat → Nat → Nat → Nat × Nat
  | _, _, c, 0 => (0, c)
  | x, y, c, k + 1 =>
    let s := x % 16 + y % 16 + c
    let d := if 10 ≤ s then s - 10 else s
    let c2 := if 10 ≤ s then 1 else 0
    let p := bcdAddGo (x / 16) (y / 16) c2 k
    (d + 16 * p.1, p.2)

/-- Modelled from the spec: `bcd_add(x, y, error)` (body not in the
repository).  Validates every nibble of both operands (else
`BAD_VALUE_ERR`, taking priority), then adds digit-wise with decimal
carry; a carry surviving past the most significant digit is
`OVERFLOW_ERR`. -/
def bcd_add (D x y : Nat) : Nat × Option BcdError :=
  let p := bcdAddGo x y 0 D
  (p.1,
    if ValidBcd D x ∧ ValidBcd D y then
      if p.2 = 0 then none else some OVERFLOW_ERR
    else some BAD_VALUE_ERR)

/-- Modelled from the spec: inner loop of schoolbook BCD multiplication —
the partial sums `x_i * y_j * 10 ^ (i + j)` contributed by nibble `i` of
`x` against nibbles `j < k` of `y`, accumulated at their decimal
positions. -/
def mulSumJ (x y i : Nat) : Nat → Nat
  | 0 => 0
  | j + 1 => bcdDigit x i * bcdDigit y j * 10 ^ (i + j) + mulSumJ x y i j

/-- Modelled from the spec: outer loop of schoolbook BCD multiplication,
accumulating the contributions of nibbles `i < k` of `x` against all `Dy`
nibbles of `y`. -/
def mulAccGo (x y Dy : Nat) : Nat → Nat
  | 0 => 0
  | i + 1 => mulSumJ x y i Dy + mulAccGo x y Dy i

/-- Decimal accumulator of schoolbook long multiplication over the `D`
digit pairs of the two operands, before repacking. -/
def mulAcc (D x y : Nat) : Nat := mulAccGo x y D D

/-- Modelled from the spec: `bcd_multiply(x, y, error)` (body not in the
repository).  Validates all nibbles of both operands (else
`BAD_VALUE_ERR`, taking priority), accumulates the schoolbook product,
and reports `OVERFLOW_ERR` when a nonzero digit of the product would land
at or beyond position `D` (the accumulator reaches `10 ^ D`). -/
def bcd_multiply (D x y : Nat) : Nat × Option BcdError :=
  let acc := mulAcc D x y
  (toBcd D acc,
    if ValidBcd D x ∧ ValidBcd D y then
      if 10 ^ D ≤ acc then some OVERFLOW_ERR else none
    else some BAD_VALUE_ERR)

/-- Decimal value of a run of ASCII digit characters, accumulated
left to right starting from `acc` (shift-and-add in decimal). -/
def digitsValGo : Nat → List Char → Nat
  | acc, [] => acc
  | acc, c :: cs => digitsValGo (acc * 10 + (c.toNat - 48)) cs

/-- Modelled from the spec: `str_to_bcd(s, p, error)` (body not in the
repository).  Consumes the maximal leading run of ASCII decimal digits of
`s`, accumulating its decimal value; returns the BCD packing of that
value, the cursor to the first non-digit character, and out of band
`OVERFLOW_ERR` when the run's value is `≥ 10 ^ D` (the spec requires
detection here even though the header leaves overflow undefined). -/
def str_to_bcd (D : Nat) (s : List Char) : Nat × List Char × Option BcdError :=
  let v := digitsValGo 0 (s.takeWhile Char.isDigit)
  (toBcd D v, s.dropWhile Char.isDigit,
    if 10 ^ D ≤ v then some OVERFLOW_ERR else none)

/-- Index just above the most significant nonzero nibble among the low `k`
nibbles of `b` (0 when they are all zero). -/
def msd : Nat → Nat → Nat
  | 0, _ => 0
  | k + 1, b => if bcdDigit b k ≠ 0 then k + 1 else msd k b

/-- Number of significant decimal digits of a BCD word: leading zero
digits are trimmed, and the value zero still has one significant digit. -/
def sigDigits (D b : Nat) : Nat := max (msd D b) 1

/-- Digit characters of the low `k` nibbles of `b`, most significant
first. -/
def bcdChars : Nat → Nat → List Char
  | 0, _ => []
  | k + 1, b => Char.ofNat (48 + bcdDigit b k) :: bcdChars k b

/-- Buffer size (including the terminating NUL) sufficient for any string
representation of a `D`-digit BCD value, from the `BCD_BUF_SIZE` enum of
`bcd.h` (`MAX_BCD_DIGITS + 1`). -/
def BCD_BUF_SIZE (D : Nat) : Nat := D + 1

/-- Modelled from the spec: `bcd_to_str(bcd, buf, bufSize, error)` (body
not in the repository).  Validates the capacity first (`OVERFLOW_ERR` and
no write when `bufSize < BCD_BUF_SIZE`), then fails with `BAD_VALUE_ERR`
when a digit in the significant range exceeds 9, and otherwise writes the
significant digits most-significant first followed by a NUL terminator,
returning the written buffer content, the count of characters written
excluding the terminator, and the error report. -/
def bcd_to_str (D b bufSize : Nat) : List Char × Nat × Option BcdError :=
  if bufSize < BCD_BUF_SIZE D then ([], 0, some OVERFLOW_ERR)
  else if ¬ (∀ i, i < sigDigits D b → bcdDigit b i ≤ 9) then
    ([], 0, some BAD_VALUE_ERR)
  else
    (bcdChars (sigDigits D b) b ++ [Char.ofNat 0], sigDigits D b, none)

/-- Content of the caller's `BcdError` slot after a call, modelling the
out-parameter convention of `bcd.h`: a reported error is written into the
slot, otherwise the slot is left unchanged. -/
def errSlotAfter (report : Option BcdError) (slot : BcdError) : BcdError :=
  report.getD slot

/-! Basic facts about nibbles and the two packings. -/

theorem bcdDigit_lt (b i : Nat) : bcdDigit b i < 16 :=
  Nat.mod_lt _ (by norm_num)

theorem bcdDigit_zero (b : Nat) : bcdDigit b 0 = b % 16 := by
  simp [bcdDigit]

theorem bcdDigit_succ (b i : Nat) : bcdDigit b (i + 1) = bcdDigit (b / 16) i := by
  simp [bcdDigit, Nat.div_div_eq_div_mul, pow_succ, Nat.mul_comm]

theorem fromBcdGo_acc (b : Nat) :
    ∀ k acc, fromBcdGo b k acc = acc * 10 ^ k + fromBcdGo b k 0
  | 0, acc => by simp [fromBcdGo]
  | k + 1, acc => by
    rw [fromBcdGo, fromBcdGo_acc b k (acc * 10 + bcdDigit b k),
      show fromBcdGo b (k + 1) 0 = fromBcdGo b k (0 * 10 + bcdDigit b k) from rfl,
      fromBcdGo_acc b k (0 * 10 + bcdDigit b k), pow_succ]
    ring

theorem fromBcd_succ_top (k b : Nat) :
    fromBcd (k + 1) b = bcdDigit b k * 10 ^ k + fromBcd k b := by
  show fromBcdGo b k (0 * 10 + bcdDigit b k) = _
  rw [fromBcdGo_acc]
  simp [fromBcd]

theorem fromBcd_succ_bot : ∀ k b : Nat,
    fromBcd (k + 1) b = 10 * fromBcd k (b / 16) + b % 16
  | 0, b => by simp [fromBcd, fromBcdGo, bcdDigit]
  | k + 1, b => by
    rw [fromBcd_succ_top (k + 1) b, bcdDigit_succ, fromBcd_succ_bot k b,
      fromBcd_succ_top k (b / 16), pow_succ]
    ring

theorem fromBcd_lt : ∀ k b : Nat, fromBcd k b < 16 ^ k
  | 0, b => by simp [fromBcd, fromBcdGo]
  | k + 1, b => by
    have ih := fromBcd_lt k (b / 16)
    have hm : b % 16 < 16 := Nat.mod_lt _ (by norm_num)
    rw [fromBcd_succ_bot, pow_succ]
    omega

theorem fromBcd_lt_of_valid : ∀ k b : Nat,
    (∀ i, i < k → bcdDigit b i ≤ 9) → fromBcd k b < 10 ^ k
  | 0, b, _ => by simp [fromBcd, fromBcdGo]
  | k + 1, b, h => by
    have ih := fromBcd_lt_of_valid k b (fun i hi => h i (Nat.lt_succ_of_lt hi))
    have hd : bcdDigit b k ≤ 9 := h k (Nat.lt_succ_self k)
    have h9 : bcdDigit b k * 10 ^ k ≤ 9 * 10 ^ k :=
      Nat.mul_le_mul hd (le_refl _)
    rw [fromBcd_succ_top, pow_succ]
    omega

theorem toBcd_lt : ∀ k v : Nat, toBcd k v < 16 ^ k
  | 0, _ => by simp [toBcd]
  | k + 1, v => by
    have ih := toBcd_lt k (v / 10)
    have hm : v % 10 < 10 := Nat.mod_lt _ (by norm_num)
    rw [toBcd, pow_succ]
    omega

theorem toBcd_zero : ∀ k : Nat, toBcd k 0 = 0
  | 0 => rfl
  | k + 1 => by simp [toBcd, toBcd_zero k]

theorem bcdDigit_toBcd : ∀ k v i : Nat, i < k →
    bcdDigit (toBcd k v) i = v / 10 ^ i % 10
  | 0, _, _, h => absurd h (Nat.not_lt_zero _)
  | k + 1, v, 0, _ => by
    have hm : v % 10 < 16 := by omega
    rw [bcdDigit_zero, toBcd, Nat.add_mul_mod_self_left, Nat.mod_eq_of_lt hm]
    simp
  | k + 1, v, i + 1, h => by
    have hm : v % 10 < 16 := by omega
    rw [bcdDigit_succ, toBcd,
      Nat.add_mul_div_left _ _ (by norm_num : (0 : Nat) < 16),
      Nat.div_eq_of_lt hm, Nat.zero_add,
      bcdDigit_toBcd k (v / 10) i (by omega),
      Nat.div_div_eq_div_mul, pow_succ, Nat.mul_comm (10 ^ i) 10]

theorem bcdDigit_toBcd_le (k v i : Nat) : bcdDigit (toBcd k v) i ≤ 9 := by
  by_cases h : i < k
  · rw [bcdDigit_toBcd k v i h]
    exact Nat.le_of_lt_succ (Nat.mod_lt _ (by norm_num))
  · have hlt : toBcd k v < 16 ^ i :=
      lt_of_lt_of_le (toBcd_lt k v) (Nat.pow_le_pow_right (by norm_num) (by omega))
    unfold bcdDigit
    rw [Nat.div_eq_of_lt hlt]
    simp

theorem validBcd_toBcd (D v : Nat) : ValidBcd D (toBcd D v) :=
  fun i _ => bcdDigit_toBcd_le D v i

theorem bcdDigit_toBcd_high (k v i : Nat) (h : v < 10 ^ i) :
    bcdDigit (toBcd k v) i = 0 := by
  by_cases hik : i < k
  · rw [bcdDigit_toBcd k v i hik, Nat.div_eq_of_lt (by omega)]
  · have hlt : toBcd k v < 16 ^ i :=
      lt_of_lt_of_le (toBcd_lt k v) (Nat.pow_le_pow_right (by norm_num) (by omega))
    unfold bcdDigit
    rw [Nat.div_eq_of_lt hlt]

theorem fromBcd_toBcd : ∀ k v : Nat, v < 10 ^ k → fromBcd k (toBcd k v) = v
  | 0, v, h => by
    simp only [pow_zero, Nat.lt_one_iff] at h
    simp [h, fromBcd, fromBcdGo, toBcd]
  | k + 1, v, h => by
    have hm : v % 10 < 16 := by omega
    have h1 : toBcd (k + 1) v / 16 = toBcd k (v / 10) := by
      rw [toBcd, Nat.add_mul_div_left _ _ (by norm_num : (0 : Nat) < 16),
        Nat.div_eq_of_lt hm, Nat.zero_add]
    have h2 : toBcd (k + 1) v % 16 = v % 10 := by
      rw [toBcd, Nat.add_mul_mod_self_left, Nat.mod_eq_of_lt hm]
    have hdiv : v / 10 < 10 ^ k := by
      rw [Nat.div_lt_iff_lt_mul (by norm_num : (0 : Nat) < 10)]
      rw [pow_succ] at h
      exact h
    rw [fromBcd_succ_bot, h1, h2, fromBcd_toBcd k (v / 10) hdiv]
    omega

/-! Significant digits and leading-zero trimming. -/

theorem msd_le : ∀ k b : Nat, msd k b ≤ k
  | 0, _ => le_refl 0
  | k + 1, b => by
    rw [msd]
    split
    · exact le_refl _
    · exact Nat.le_succ_of_le (msd_le k b)

theorem bcdDigit_eq_zero_of_msd_le : ∀ k b i : Nat,
    msd k b ≤ i → i < k → bcdDigit b i = 0
  | 0, _, _, _, h => absurd h (Nat.not_lt_zero _)
  | k + 1, b, i, hm, hi => by
    rw [msd] at hm
    by_cases hd : bcdDigit b k ≠ 0
    · rw [if_pos hd] at hm
      omega
    · rw [if_neg hd] at hm
      by_cases hik : i = k
      · subst hik
        omega
      · exact bcdDigit_eq_zero_of_msd_le k b i hm (by omega)

theorem msd_digit_ne_zero : ∀ k b m : Nat, msd k b = m + 1 → bcdDigit b m ≠ 0
  | 0, _, _, h => by simp [msd] at h
  | k + 1, b, m, h => by
    rw [msd] at h
    by_cases hd : bcdDigit b k ≠ 0
    · rw [if_pos hd] at h
      have : m = k := by omega
      subst this
      exact hd
    · rw [if_neg hd] at h
      exact msd_digit_ne_zero k b m h

theorem msd_eq_zero : ∀ k b : Nat, (∀ i, i < k → bcdDigit b i = 0) → msd k b = 0
  | 0, _, _ => rfl
  | k + 1, b, h => by
    rw [msd, if_neg (by simpa using h k (Nat.lt_succ_self k))]
    exact msd_eq_zero k b (fun i hi => h i (Nat.lt_succ_of_lt hi))

theorem fromBcd_eq_of_high_zero : ∀ k m b : Nat, m ≤ k →
    (∀ i, m ≤ i → i < k → bcdDigit b i = 0) → fromBcd k b = fromBcd m b
  | 0, m, b, hm, _ => by
    have : m = 0 := Nat.le_zero.mp hm
    rw [this]
  | k + 1, m, b, hm, hz => by
    by_cases hmk : m = k + 1
    · rw [hmk]
    · have hmk' : m ≤ k := by omega
      rw [fromBcd_succ_top, hz k hmk' (Nat.lt_succ_self k),
        fromBcd_eq_of_high_zero k m b hmk' (fun i h1 h2 => hz i h1 (Nat.lt_succ_of_lt h2))]
      ring

theorem fromBcd_eq_zero_digit : ∀ k b : Nat, fromBcd k b = 0 →
    ∀ i, i < k → bcdDigit b i = 0
  | 0, _, _, _, hi => absurd hi (Nat.not_lt_zero _)
  | k + 1, b, h, i, hi => by
    rw [fromBcd_succ_top] at h
    have hp : 0 < 10 ^ k := Nat.pos_pow_of_pos k (by norm_num)
    have hd : bcdDigit b k = 0 := by
      rcases Nat.add_eq_zero.mp h with ⟨h1, _⟩
      exact (Nat.mul_eq_zero.mp h1).resolve_right (by omega)
    by_cases hik : i = k
    · rw [hik]; exact hd
    · exact fromBcd_eq_zero_digit k b (by omega) i (by omega)

/-! Decoding the characters written by the text converter. -/

theorem digitChar_toNat : ∀ d : Nat, d ≤ 9 → (Char.ofNat (48 + d)).toNat - 48 = d := by
  decide

theorem digitChar_isDigit : ∀ d : Nat, d ≤ 9 → (Char.ofNat (48 + d)).isDigit = true := by
  decide

theorem digitsValGo_nil (acc : Nat) : digitsValGo acc [] = acc := rfl

theorem digitsValGo_cons (acc : Nat) (c : Char) (cs : List Char) :
    digitsValGo acc (c :: cs) = digitsValGo (acc * 10 + (c.toNat - 48)) cs := rfl

theorem digitsValGo_bcdChars : ∀ k b acc : Nat,
    (∀ i, i < k → bcdDigit b i ≤ 9) →
    digitsValGo acc (bcdChars k b) = acc * 10 ^ k + fromBcd k b
  | 0, b, acc, _ => by
    rw [show bcdChars 0 b = [] from rfl, digitsValGo_nil]
    simp [fromBcd, fromBcdGo]
  | k + 1, b, acc, h => by
    have hd : bcdDigit b k ≤ 9 := h k (Nat.lt_succ_self k)
    rw [show bcdChars (k + 1) b = Char.ofNat (48 + bcdDigit b k) :: bcdChars k b from rfl,
      digitsValGo_cons, digitChar_toNat _ hd,
      digitsValGo_bcdChars k b _ (fun i hi => h i (Nat.lt_succ_of_lt hi)),
      fromBcd_succ_top, pow_succ]
    ring

/-! Correctness of the digit-wise addition loop. -/

theorem bcdAddGo_correct : ∀ k x y c : Nat,
    (∀ i, i < k → bcdDigit x i ≤ 9) → (∀ i, i < k → bcdDigit y i ≤ 9) → c ≤ 1 →
    bcdAddGo x y c k =
      (toBcd k (fromBcd k x + fromBcd k y + c),
       (fromBcd k x + fromBcd k y + c) / 10 ^ k)
  | 0, x, y, c, _, _, _ => by simp [bcdAddGo, toBcd, fromBcd, fromBcdGo]
  | k + 1, x, y, c, hx, hy, hc => by
    have hx0 : x % 16 ≤ 9 := by have := hx 0 (by omega); rwa [bcdDigit_zero] at this
    have hy0 : y % 16 ≤ 9 := by have := hy 0 (by omega); rwa [bcdDigit_zero] at this
    have hx' : ∀ i, i < k → bcdDigit (x / 16) i ≤ 9 := fun i hi => by
      rw [← bcdDigit_succ]; exact hx (i + 1) (by omega)
    have hy' : ∀ i, i < k → bcdDigit (y / 16) i ≤ 9 := fun i hi => by
      rw [← bcdDigit_succ]; exact hy (i + 1) (by omega)
    have hc2 : (if 10 ≤ x % 16 + y % 16 + c then 1 else 0) ≤ 1 := by
      split <;> omega
    have ih := bcdAddGo_correct k (x / 16) (y / 16) _ hx' hy' hc2
    rw [bcdAddGo]
    simp only [ih]
    set s := x % 16 + y % 16 + c with hs
    set A := fromBcd k (x / 16) with hA
    set B := fromBcd k (y / 16) with hB
    have hslt : s < 20 := by omega
    have hc2eq : (if 10 ≤ s then 1 else 0) = s / 10 := by split <;> omega
    have hdeq : (if 10 ≤ s then s - 10 else s) = s % 10 := by split <;> omega
    have hS : fromBcd (k + 1) x + fromBcd (k + 1) y + c = 10 * (A + B) + s := by
      rw [fromBcd_succ_bot, fromBcd_succ_bot, ← hA, ← hB]
      omega
    have hSdiv : (fromBcd (k + 1) x + fromBcd (k + 1) y + c) / 10 = A + B + s / 10 := by
      omega
    have hSmod : (fromBcd (k + 1) x + fromBcd (k + 1) y + c) % 10 = s % 10 := by
      omega
    rw [Prod.mk.injEq]
    refine ⟨?_, ?_⟩
    · rw [hdeq, hc2eq, toBcd, hSmod, hSdiv]
    · rw [hc2eq, pow_succ, Nat.mul_comm (10 ^ k) 10, ← Nat.div_div_eq_div_mul, hSdiv]

/-! The schoolbook accumulator computes the true product. -/

theorem mulSumJ_eq (x y i : Nat) :
    ∀ k, mulSumJ x y i k = bcdDigit x i * 10 ^ i * fromBcd k y
  | 0 => by simp [mulSumJ, fromBcd, fromBcdGo]
  | k + 1 => by
    rw [mulSumJ, mulSumJ_eq x y i k, fromBcd_succ_top, pow_add]
    ring

theorem mulAccGo_eq (x y Dy : Nat) :
    ∀ k, mulAccGo x y Dy k = fromBcd k x * fromBcd Dy y
  | 0 => by simp [mulAccGo, fromBcd, fromBcdGo]
  | k + 1 => by
    rw [mulAccGo, mulSumJ_eq, mulAccGo_eq x y Dy k, fromBcd_succ_top]
    ring

theorem mulAcc_eq (D x y : Nat) : mulAcc D x y = fromBcd D x * fromBcd D y :=
  mulAccGo_eq x y D D

/-! The first character surviving `dropWhile` fails the predicate. -/

theorem head_dropWhile_not (p : Char → Bool) :
    ∀ (s : List Char) (c : Char), (s.dropWhile p).head? = some c → p c = false := by
  intro s
  induction s with
  | nil => intro c h; simp [List.dropWhile] at h
  | cons a t ih =>
    intro c h
    by_cases hp : p a
    · rw [show (a :: t).dropWhile p = t.dropWhile p by simp [List.dropWhile, hp]] at h
      exact ih c h
    · rw [show (a :: t).dropWhile p = a :: t by
        simp [List.dropWhile, Bool.of_not_eq_true hp]] at h
      simp only [List.head?_cons, Option.some.injEq] at h
      rw [← h]
      exact Bool.of_not_eq_true hp

/-! Unfolding equations for the modelled operations. -/

theorem bcd_add_def (D x y : Nat) : bcd_add D x y =
    ((bcdAddGo x y 0 D).1,
      if ValidBcd D x ∧ ValidBcd D y then
        if (bcdAddGo x y 0 D).2 = 0 then none else some OVERFLOW_ERR
      else some BAD_VALUE_ERR) := rfl

theorem bcd_multiply_def (D x y : Nat) : bcd_multiply D x y =
    (toBcd D (mulAcc D x y),
      if ValidBcd D x ∧ ValidBcd D y then
        if 10 ^ D ≤ mulAcc D x y then some OVERFLOW_ERR else none
      else some BAD_VALUE_ERR) := rfl

theorem str_to_bcd_def (D : Nat) (s : List Char) : str_to_bcd D s =
    (toBcd D (digitsValGo 0 (s.takeWhile Char.isDigit)), s.dropWhile Char.isDigit,
      if 10 ^ D ≤ digitsValGo 0 (s.takeWhile Char.isDigit) then some OVERFLOW_ERR
      else none) := rfl

theorem bcd_to_str_def (D b bufSize : Nat) : bcd_to_str D b bufSize =
    if bufSize < BCD_BUF_SIZE D then ([], 0, some OVERFLOW_ERR)
    else if ¬ (∀ i, i < sigDigits D b → bcdDigit b i ≤ 9) then
      ([], 0, some BAD_VALUE_ERR)
    else (bcdChars (sigDigits D b) b ++ [Char.ofNat 0], sigDigits D b, none) := rfl

theorem bcdChars_length : ∀ k b : Nat, (bcdChars k b).length = k
  | 0, _ => rfl
  | k + 1, b => by
    rw [show bcdChars (k + 1) b = Char.ofNat (48 + bcdDigit b k) :: bcdChars k b from rfl,
      List.length_cons, bcdChars_length k b]

theorem digitChar_ne_zero : ∀ d : Nat, d ≤ 9 → d ≠ 0 → Char.ofNat (48 + d) ≠ '0' := by
  decide

/-- C1: for every binary value `v` with `v < 10 ^ D` (`D` decimal digits of
the configured width), `bcd_to_binary (binary_to_bcd v)` returns `v` again
and neither call reports an error. -/
theorem c1_roundtrip (D v : Nat) (h : v < 10 ^ D) :
    bcd_to_binary D (binary_to_bcd D v).1 = (v, none) ∧
    (binary_to_bcd D v).2 = none := by
  constructor
  · show (fromBcd D (toBcd D v),
      if ValidBcd D (toBcd D v) then none else some BAD_VALUE_ERR) = (v, none)
    rw [if_pos (validBcd_toBcd D v), fromBcd_toBcd D v h]
  · show (if 10 ^ D ≤ v then some OVERFLOW_ERR else none) = none
    rw [if_neg (by omega)]

theorem c1_roundtrip_witness :
    1234 < 10 ^ 4 ∧
    bcd_to_binary 4 (binary_to_bcd 4 1234).1 = (1234, none) ∧
    (binary_to_bcd 4 1234).2 = none :=
  ⟨by decide, (c1_roundtrip 4 1234 (by decide)).1, (c1_roundtrip 4 1234 (by decide)).2⟩

/-- C5: `binary_to_bcd` reports `OVERFLOW_ERR` exactly when its input needs
more than `D` decimal digits: it overflows at `10 ^ D`, succeeds at
`10 ^ D - 1`, succeeds for every `v < 10 ^ D`, and the nibbles above the
significant digits of the result are zero. -/
theorem c5_binary_to_bcd_boundary (D : Nat) :
    (binary_to_bcd D (10 ^ D)).2 = some OVERFLOW_ERR ∧
    (binary_to_bcd D (10 ^ D - 1)).2 = none ∧
    (∀ v, v < 10 ^ D → (binary_to_bcd D v).2 = none) ∧
    (∀ v i, v < 10 ^ i → bcdDigit (binary_to_bcd D v).1 i = 0) := by
  have hp : 0 < 10 ^ D := Nat.pos_pow_of_pos D (by norm_num)
  refine ⟨?_, ?_, ?_, ?_⟩
  · show (if 10 ^ D ≤ 10 ^ D then some OVERFLOW_ERR else none) = some OVERFLOW_ERR
    rw [if_pos (le_refl _)]
  · show (if 10 ^ D ≤ 10 ^ D - 1 then some OVERFLOW_ERR else none) = none
    rw [if_neg (by omega)]
  · intro v hv
    show (if 10 ^ D ≤ v then some OVERFLOW_ERR else none) = none
    rw [if_neg (by omega)]
  · intro v i hv
    exact bcdDigit_toBcd_high D v i hv

theorem c5_binary_to_bcd_boundary_witness :
    (binary_to_bcd 4 10000).2 = some OVERFLOW_ERR ∧
    (binary_to_bcd 4 9999).2 = none ∧
    bcdDigit (binary_to_bcd 4 42).1 2 = 0 :=
  ⟨(c5_binary_to_bcd_boundary 4).1,
   (c5_binary_to_bcd_boundary 4).2.1,
   (c5_binary_to_bcd_boundary 4).2.2.2 42 2 (by decide)⟩

/-- C9: `bcd_to_binary` never reports an overflow: its decoded accumulator
always fits in the `W = 4 * D` bit binary word, since even the largest
decodable value satisfies `10 ^ D - 1 < 2 ^ (4 * D)`. -/
theorem c9_bcd_to_binary_no_overflow (D b : Nat) :
    (bcd_to_binary D b).2 ≠ some OVERFLOW_ERR ∧
    (bcd_to_binary D b).1 < 2 ^ (4 * D) ∧
    10 ^ D - 1 < 2 ^ (4 * D) := by
  have h16 : (16 : Nat) ^ D = 2 ^ (4 * D) := by
    rw [pow_mul]
    norm_num
  refine ⟨?_, ?_, ?_⟩
  · show (if ValidBcd D b then none else some BAD_VALUE_ERR) ≠ some OVERFLOW_ERR
    split
    · intro hc
      exact Option.noConfusion hc
    · intro hc
      rw [Option.some.injEq] at hc
      exact BcdError.noConfusion hc
  · show fromBcd D b < 2 ^ (4 * D)
    rw [← h16]
    exact fromBcd_lt D b
  · have h10 : (10 : Nat) ^ D ≤ 16 ^ D := Nat.pow_le_pow_left (by norm_num) D
    have hp : 0 < 10 ^ D := Nat.pos_pow_of_pos D (by norm_num)
    rw [← h16]
    omega

/-- C6: any word with a nibble in `[10, 15]` among its `D` digits makes
`bcd_to_binary`, `bcd_add` and `bcd_multiply` (through either operand)
report the invalid-digit error `BAD_VALUE_ERR`. -/
theorem c6_invalid_digit (D b x y : Nat) (h : ∃ i, i < D ∧ 10 ≤ bcdDigit b i) :
    (bcd_to_binary D b).2 = some BAD_VALUE_ERR ∧
    (bcd_add D b y).2 = some BAD_VALUE_ERR ∧
    (bcd_add D x b).2 = some BAD_VALUE_ERR ∧
    (bcd_multiply D b y).2 = some BAD_VALUE_ERR ∧
    (bcd_multiply D x b).2 = some BAD_VALUE_ERR := by
  have hnv : ¬ ValidBcd D b := by
    intro hv
    obtain ⟨i, hi, h10⟩ := h
    have := hv i hi
    omega
  refine ⟨?_, ?_, ?_, ?_, ?_⟩
  · show (if ValidBcd D b then none else some BAD_VALUE_ERR) = some BAD_VALUE_ERR
    rw [if_neg hnv]
  · rw [bcd_add_def]
    show (if ValidBcd D b ∧ ValidBcd D y then _ else some BAD_VALUE_ERR) = _
    rw [if_neg (fun hc => hnv hc.1)]
  · rw [bcd_add_def]
    show (if ValidBcd D x ∧ ValidBcd D b then _ else some BAD_VALUE_ERR) = _
    rw [if_neg (fun hc => hnv hc.2)]
  · rw [bcd_multiply_def]
    show (if ValidBcd D b ∧ ValidBcd D y then _ else some BAD_VALUE_ERR) = _
    rw [if_neg (fun hc => hnv hc.1)]
  · rw [bcd_multiply_def]
    show (if ValidBcd D x ∧ ValidBcd D b then _ else some BAD_VALUE_ERR) = _
    rw [if_neg (fun hc => hnv hc.2)]

theorem c6_invalid_digit_witness :
    (bcd_to_binary 4 0x1a3).2 = some BAD_VALUE_ERR ∧
    (bcd_add 4 0x1a3 0x5).2 = some BAD_VALUE_ERR ∧
    (bcd_multiply 4 0x7 0x1a3).2 = some BAD_VALUE_ERR :=
  ⟨(c6_invalid_digit 4 0x1a3 0x7 0x5 ⟨1, by decide, by decide⟩).1,
   (c6_invalid_digit 4 0x1a3 0x7 0x5 ⟨1, by decide, by decide⟩).2.1,
   (c6_invalid_digit 4 0x1a3 0x7 0x5 ⟨1, by decide, by decide⟩).2.2.2.2⟩

/-- C8: when an operand of `bcd_add` or `bcd_multiply` has an invalid
nibble and the operation would also overflow, the invalid-digit error
`BAD_VALUE_ERR` is the one reported, taking priority over
`OVERFLOW_ERR`. -/
theorem c8_error_precedence (D x y : Nat)
    (hinv : ¬ (ValidBcd D x ∧ ValidBcd D y))
    (haddOver : 10 ^ D ≤ fromBcd D x + fromBcd D y)
    (hmulOver : 10 ^ D ≤ mulAcc D x y) :
    (bcd_add D x y).2 = some BAD_VALUE_ERR ∧
    (bcd_multiply D x y).2 = some BAD_VALUE_ERR := by
  constructor
  · rw [bcd_add_def]
    show (if ValidBcd D x ∧ ValidBcd D y then _ else some BAD_VALUE_ERR) = _
    rw [if_neg hinv]
  · rw [bcd_multiply_def]
    show (if ValidBcd D x ∧ ValidBcd D y then _ else some BAD_VALUE_ERR) = _
    rw [if_neg hinv]

theorem c8_error_precedence_witness :
    (bcd_add 4 0xa000 0x9999).2 = some BAD_VALUE_ERR ∧
    (bcd_multiply 4 0xa000 0x9999).2 = some BAD_VALUE_ERR :=
  c8_error_precedence 4 0xa000 0x9999 (by decide) (by decide) (by decide)

/-! Error-component unfolding lemmas. -/

theorem binary_to_bcd_err (D v : Nat) : (binary_to_bcd D v).2 =
    if 10 ^ D ≤ v then some OVERFLOW_ERR else none := rfl

theorem bcd_to_binary_err (D b : Nat) : (bcd_to_binary D b).2 =
    if ValidBcd D b then none else some BAD_VALUE_ERR := rfl

theorem bcd_add_err (D x y : Nat) : (bcd_add D x y).2 =
    if ValidBcd D x ∧ ValidBcd D y then
      if (bcdAddGo x y 0 D).2 = 0 then none else some OVERFLOW_ERR
    else some BAD_VALUE_ERR := rfl

theorem bcd_multiply_err (D x y : Nat) : (bcd_multiply D x y).2 =
    if ValidBcd D x ∧ ValidBcd D y then
      if 10 ^ D ≤ mulAcc D x y then some OVERFLOW_ERR else none
    else some BAD_VALUE_ERR := rfl

theorem str_to_bcd_err (D : Nat) (s : List Char) : (str_to_bcd D s).2.2 =
    if 10 ^ D ≤ digitsValGo 0 (s.takeWhile Char.isDigit) then some OVERFLOW_ERR
    else none := rfl

theorem bcd_to_str_err (D b bufSize : Nat) : (bcd_to_str D b bufSize).2.2 =
    if bufSize < BCD_BUF_SIZE D then some OVERFLOW_ERR
    else if ¬ (∀ i, i < sigDigits D b → bcdDigit b i ≤ 9) then some BAD_VALUE_ERR
    else none := by
  rw [bcd_to_str_def]
  split_ifs <;> rfl

/-- C2: `str_to_bcd` consumes exactly the maximal leading run of ASCII
digits, leaves the cursor at the first non-digit character, yields zero
for an empty run, reports `OVERFLOW_ERR` exactly when the consumed run's
value reaches `10 ^ D`, and on `"042x"` yields `0x42` with the cursor at
`'x'` and no error. -/
theorem c2_str_to_bcd (D : Nat) (s : List Char) :
    s.takeWhile Char.isDigit ++ (str_to_bcd D s).2.1 = s ∧
    (∀ c ∈ s.takeWhile Char.isDigit, c.isDigit = true) ∧
    (∀ c, (str_to_bcd D s).2.1.head? = some c → c.isDigit = false) ∧
    (s.takeWhile Char.isDigit = [] →
      (str_to_bcd D s).1 = 0 ∧ (str_to_bcd D s).2.2 = none) ∧
    ((str_to_bcd D s).2.2 = some OVERFLOW_ERR ↔
      10 ^ D ≤ digitsValGo 0 (s.takeWhile Char.isDigit)) ∧
    ((str_to_bcd D s).2.2 = none ↔
      digitsValGo 0 (s.takeWhile Char.isDigit) < 10 ^ D) ∧
    str_to_bcd 4 ('0' :: '4' :: '2' :: 'x' :: []) = (0x42, ['x'], none) := by
  have hp : 0 < 10 ^ D := Nat.pos_pow_of_pos D (by norm_num)
  refine ⟨?_, ?_, ?_, ?_, ?_, ?_, by decide⟩
  · show s.takeWhile Char.isDigit ++ s.dropWhile Char.isDigit = s
    exact List.takeWhile_append_dropWhile Char.isDigit s
  · intro c hc
    exact List.mem_takeWhile_imp hc
  · intro c hc
    exact head_dropWhile_not Char.isDigit s c hc
  · intro he
    constructor
    · show toBcd D (digitsValGo 0 (s.takeWhile Char.isDigit)) = 0
      rw [he, digitsValGo_nil]
      exact toBcd_zero D
    · rw [str_to_bcd_err, he, digitsValGo_nil, if_neg (by omega)]
  · rw [str_to_bcd_err]
    by_cases hle : 10 ^ D ≤ digitsValGo 0 (s.takeWhile Char.isDigit)
    · rw [if_pos hle]
      exact ⟨fun _ => hle, fun _ => rfl⟩
    · rw [if_neg hle]
      exact ⟨fun hc => Option.noConfusion hc, fun hc => absurd hc hle⟩
  · rw [str_to_bcd_err]
    by_cases hle : 10 ^ D ≤ digitsValGo 0 (s.takeWhile Char.isDigit)
    · rw [if_pos hle]
      exact ⟨fun hc => Option.noConfusion hc, fun hc => absurd hle (by omega)⟩
    · rw [if_neg hle]
      exact ⟨fun _ => by omega, fun _ => rfl⟩

theorem c2_str_to_bcd_witness :
    ('0' :: '4' :: '2' :: 'x' :: []).takeWhile Char.isDigit ++
      (str_to_bcd 4 ('0' :: '4' :: '2' :: 'x' :: [])).2.1 =
      '0' :: '4' :: '2' :: 'x' :: [] ∧
    (str_to_bcd 4 ('0' :: '4' :: '2' :: 'x' :: [])).2.2 = none :=
  ⟨(c2_str_to_bcd 4 ('0' :: '4' :: '2' :: 'x' :: [])).1,
   ((c2_str_to_bcd 4 ('0' :: '4' :: '2' :: 'x' :: [])).2.2.2.2.2.1).mpr (by decide)⟩

/-- C3: for valid operands, `bcd_add` computes the digit-wise decimal sum
with carry: it returns the packing of `x + y` with no error when the sum
fits in `D` digits, and reports `OVERFLOW_ERR` when a carry survives past
the most significant digit (the sum reaches `10 ^ D`). -/
theorem c3_bcd_add (D x y : Nat) (hvx : ValidBcd D x) (hvy : ValidBcd D y) :
    (fromBcd D x + fromBcd D y < 10 ^ D →
      bcd_add D x y = (toBcd D (fromBcd D x + fromBcd D y), none) ∧
      fromBcd D (bcd_add D x y).1 = fromBcd D x + fromBcd D y) ∧
    (10 ^ D ≤ fromBcd D x + fromBcd D y →
      (bcd_add D x y).2 = some OVERFLOW_ERR) := by
  have hgo := bcdAddGo_correct D x y 0 hvx hvy (by omega)
  simp only [Nat.add_zero] at hgo
  have h1 : (bcd_add D x y).1 = toBcd D (fromBcd D x + fromBcd D y) := by
    rw [bcd_add_def, hgo]
  have h2 : (bcd_add D x y).2 =
      if (fromBcd D x + fromBcd D y) / 10 ^ D = 0 then none
      else some OVERFLOW_ERR := by
    rw [bcd_add_err, hgo, if_pos ⟨hvx, hvy⟩]
  constructor
  · intro hlt
    have hc0 : (fromBcd D x + fromBcd D y) / 10 ^ D = 0 := Nat.div_eq_of_lt hlt
    refine ⟨?_, ?_⟩
    · rw [Prod.ext_iff]
      exact ⟨h1, by rw [h2, hc0, if_pos rfl]⟩
    · rw [h1, fromBcd_toBcd D _ hlt]
  · intro hge
    have hp : 0 < 10 ^ D := Nat.pos_pow_of_pos D (by norm_num)
    have hne : (fromBcd D x + fromBcd D y) / 10 ^ D ≠ 0 := by
      have := Nat.div_pos hge hp
      omega
    rw [h2, if_neg hne]

theorem c3_bcd_add_witness : bcd_add 4 0x99 0x1 = (0x100, none) := by
  have h := ((c3_bcd_add 4 0x99 0x1 (by decide) (by decide)).1 (by decide)).1
  rw [h]
  decide

/-- C4: for valid operands, the schoolbook accumulator of `bcd_multiply`
equals the true product `x * y`; the call returns the packing of the
product with no error when it fits in `D` digits and reports
`OVERFLOW_ERR` exactly when the product needs more than `D` digits. -/
theorem c4_bcd_multiply (D x y : Nat) (hvx : ValidBcd D x) (hvy : ValidBcd D y) :
    mulAcc D x y = fromBcd D x * fromBcd D y ∧
    (fromBcd D x * fromBcd D y < 10 ^ D →
      bcd_multiply D x y = (toBcd D (fromBcd D x * fromBcd D y), none) ∧
      fromBcd D (bcd_multiply D x y).1 = fromBcd D x * fromBcd D y) ∧
    (10 ^ D ≤ fromBcd D x * fromBcd D y →
      (bcd_multiply D x y).2 = some OVERFLOW_ERR) := by
  have hm := mulAcc_eq D x y
  refine ⟨hm, ?_, ?_⟩
  · intro hlt
    refine ⟨?_, ?_⟩
    · rw [bcd_multiply_def, hm, Prod.ext_iff]
      exact ⟨rfl, by rw [if_pos ⟨hvx, hvy⟩, if_neg (by omega)]⟩
    · rw [bcd_multiply_def, hm]
      show fromBcd D (toBcd D (fromBcd D x * fromBcd D y)) = _
      exact fromBcd_toBcd D _ hlt
  · intro hge
    rw [bcd_multiply_err, if_pos ⟨hvx, hvy⟩, if_pos (by rw [hm]; exact hge)]

theorem c4_bcd_multiply_witness :
    bcd_multiply 4 0x99 0x99 = (0x9801, none) ∧
    (bcd_multiply 4 0x9999 0x2).2 = some OVERFLOW_ERR := by
  constructor
  · have h := ((c4_bcd_multiply 4 0x99 0x99 (by decide) (by decide)).2.1 (by decide)).1
    rw [h]
    decide
  · exact (c4_bcd_multiply 4 0x9999 0x2 (by decide) (by decide)).2.2 (by decide)

/-- C7: `bcd_to_str` validates capacity first — `bufSize < BCD_BUF_SIZE`
(that is, `< D + 1`) reports `OVERFLOW_ERR` with nothing written; a
significant digit above 9 reports `BAD_VALUE_ERR`; otherwise the
significant digits are written most-significant first with no leading
zero (zero formats as `"0"`), followed by a NUL terminator, and the
returned count excludes the terminator. -/
theorem c7_bcd_to_str (D b bufSize : Nat) (hD : 1 ≤ D) :
    (bufSize < BCD_BUF_SIZE D →
      bcd_to_str D b bufSize = ([], 0, some OVERFLOW_ERR)) ∧
    (BCD_BUF_SIZE D ≤ bufSize →
      (∃ i, i < sigDigits D b ∧ 10 ≤ bcdDigit b i) →
      (bcd_to_str D b bufSize).2.2 = some BAD_VALUE_ERR) ∧
    (BCD_BUF_SIZE D ≤ bufSize → ValidBcd D b →
      bcd_to_str D b bufSize =
        (bcdChars (sigDigits D b) b ++ [Char.ofNat 0], sigDigits D b, none) ∧
      sigDigits D b ≤ D ∧
      (bcd_to_str D b bufSize).1.length = sigDigits D b + 1 ∧
      digitsValGo 0 (bcdChars (sigDigits D b) b) = fromBcd D b ∧
      (fromBcd D b ≠ 0 → (bcd_to_str D b bufSize).1.head? ≠ some '0') ∧
      (fromBcd D b = 0 →
        (bcd_to_str D b bufSize).1 = '0' :: [Char.ofNat 0])) := by
  have hmsd : msd D b ≤ D := msd_le D b
  have hsigD : sigDigits D b ≤ D := max_le hmsd hD
  refine ⟨?_, ?_, ?_⟩
  · intro hlt
    rw [bcd_to_str_def, if_pos hlt]
  · intro hbuf hex
    have hn : ¬ (∀ i, i < sigDigits D b → bcdDigit b i ≤ 9) := by
      obtain ⟨i, hi, h10⟩ := hex
      intro hall
      have := hall i hi
      omega
    rw [bcd_to_str_err, if_neg (by simp only [BCD_BUF_SIZE] at hbuf ⊢; omega),
      if_pos hn]
  · intro hbuf hv
    have hall : ∀ i, i < sigDigits D b → bcdDigit b i ≤ 9 :=
      fun i hi => hv i (lt_of_lt_of_le hi hsigD)
    have hmain : bcd_to_str D b bufSize =
        (bcdChars (sigDigits D b) b ++ [Char.ofNat 0], sigDigits D b, none) := by
      rw [bcd_to_str_def, if_neg (by simp only [BCD_BUF_SIZE] at hbuf ⊢; omega),
        if_neg (not_not_intro hall)]
    have hdec : digitsValGo 0 (bcdChars (sigDigits D b) b) = fromBcd D b := by
      rw [digitsValGo_bcdChars (sigDigits D b) b 0 hall]
      simp only [Nat.zero_mul, Nat.zero_add]
      have h1 : fromBcd D b = fromBcd (msd D b) b :=
        fromBcd_eq_of_high_zero D (msd D b) b hmsd
          (fun i hi1 hi2 => bcdDigit_eq_zero_of_msd_le D b i hi1 hi2)
      have h2 : fromBcd (sigDigits D b) b = fromBcd (msd D b) b :=
        fromBcd_eq_of_high_zero (sigDigits D b) (msd D b) b (le_max_left _ _)
          (fun i hi1 hi2 => bcdDigit_eq_zero_of_msd_le D b i hi1
            (lt_of_lt_of_le hi2 hsigD))
      rw [h2, h1]
    refine ⟨hmain, hsigD, ?_, hdec, ?_, ?_⟩
    · rw [hmain]
      show (bcdChars (sigDigits D b) b ++ [Char.ofNat 0]).length = sigDigits D b + 1
      rw [List.length_append, bcdChars_length]
      rfl
    · intro hne
      have hmsd_pos : msd D b ≠ 0 := by
        intro h0
        apply hne
        exact fromBcd_eq_of_high_zero D 0 b (Nat.zero_le D)
          (fun i _ hi2 => bcdDigit_eq_zero_of_msd_le D b i (by omega) hi2)
      obtain ⟨m, hm⟩ : ∃ m, msd D b = m + 1 := ⟨msd D b - 1, by omega⟩
      have hsig_eq : sigDigits D b = m + 1 := by
        unfold sigDigits
        rw [hm]
        exact Nat.max_eq_left (by omega)
      have hdm : bcdDigit b m ≠ 0 := msd_digit_ne_zero D b m hm
      have hdm9 : bcdDigit b m ≤ 9 := hv m (by omega)
      rw [hmain]
      show (bcdChars (sigDigits D b) b ++ [Char.ofNat 0]).head? ≠ some '0'
      rw [hsig_eq,
        show bcdChars (m + 1) b = Char.ofNat (48 + bcdDigit b m) :: bcdChars m b
          from rfl,
        List.cons_append, List.head?_cons]
      intro hc
      rw [Option.some.injEq] at hc
      exact digitChar_ne_zero (bcdDigit b m) hdm9 hdm hc
    · intro hz
      have hdig : ∀ i, i < D → bcdDigit b i = 0 := fromBcd_eq_zero_digit D b hz
      have hm0 : msd D b = 0 := msd_eq_zero D b hdig
      have hsig1 : sigDigits D b = 1 := by
        unfold sigDigits
        rw [hm0]
        decide
      rw [hmain]
      show bcdChars (sigDigits D b) b ++ [Char.ofNat 0] = '0' :: [Char.ofNat 0]
      rw [hsig1,
        show bcdChars 1 b = [Char.ofNat (48 + bcdDigit b 0)] from rfl,
        hdig 0 (by omega)]
      decide

theorem c7_bcd_to_str_witness :
    bcd_to_str 4 0x42 5 = (['4', '2', Char.ofNat 0], 2, none) ∧
    bcd_to_str 4 0x42 4 = ([], 0, some OVERFLOW_ERR) ∧
    (bcd_to_str 4 0xa1 5).2.2 = some BAD_VALUE_ERR := by
  refine ⟨?_, ?_, ?_⟩
  · have h := ((c7_bcd_to_str 4 0x42 5 (by decide)).2.2 (by decide) (by decide)).1
    rw [h]
    decide
  · exact (c7_bcd_to_str 4 0x42 4 (by decide)).1 (by decide)
  · exact (c7_bcd_to_str 4 0xa1 5 (by decide)).2.1 (by decide) ⟨1, by decide, by decide⟩

/-- Every operation's error report is `none`, `some BAD_VALUE_ERR` or
`some OVERFLOW_ERR`, never `some OK_ERR`. -/
theorem ne_some_ok_of (o : Option BcdError)
    (h : o = none ∨ o = some BAD_VALUE_ERR ∨ o = some OVERFLOW_ERR) :
    o ≠ some OK_ERR := by
  rcases h with h | h | h <;> rw [h] <;> intro hc
  · exact Option.noConfusion hc
  · rw [Option.some.injEq] at hc
    exact BcdError.noConfusion hc
  · rw [Option.some.injEq] at hc
    exact BcdError.noConfusion hc

/-- C10: no operation ever writes `OK_ERR` into the caller's error slot,
and when no error condition occurs the slot is left completely
unchanged — whatever stale value it held stays, so the caller must
initialize it to distinguish success. -/
theorem c10_error_slot (D v b x y bufSize : Nat) (s : List Char) (slot : BcdError) :
    (binary_to_bcd D v).2 ≠ some OK_ERR ∧
    (bcd_to_binary D b).2 ≠ some OK_ERR ∧
    (str_to_bcd D s).2.2 ≠ some OK_ERR ∧
    (bcd_to_str D b bufSize).2.2 ≠ some OK_ERR ∧
    (bcd_add D x y).2 ≠ some OK_ERR ∧
    (bcd_multiply D x y).2 ≠ some OK_ERR ∧
    (v < 10 ^ D → errSlotAfter (binary_to_bcd D v).2 slot = slot) ∧
    (ValidBcd D b → errSlotAfter (bcd_to_binary D b).2 slot = slot) ∧
    (digitsValGo 0 (s.takeWhile Char.isDigit) < 10 ^ D →
      errSlotAfter (str_to_bcd D s).2.2 slot = slot) ∧
    (ValidBcd D x → ValidBcd D y → fromBcd D x + fromBcd D y < 10 ^ D →
      errSlotAfter (bcd_add D x y).2 slot = slot) ∧
    (ValidBcd D x → ValidBcd D y → fromBcd D x * fromBcd D y < 10 ^ D →
      errSlotAfter (bcd_multiply D x y).2 slot = slot) ∧
    (BCD_BUF_SIZE D ≤ bufSize → (∀ i, i < sigDigits D b → bcdDigit b i ≤ 9) →
      errSlotAfter (bcd_to_str D b bufSize).2.2 slot = slot) := by
  refine ⟨?_, ?_, ?_, ?_, ?_, ?_, ?_, ?_, ?_, ?_, ?_, ?_⟩
  · apply ne_some_ok_of
    rw [binary_to_bcd_err]
    split
    · right; right; rfl
    · left; rfl
  · apply ne_some_ok_of
    rw [bcd_to_binary_err]
    split
    · left; rfl
    · right; left; rfl
  · apply ne_some_ok_of
    rw [str_to_bcd_err]
    split
    · right; right; rfl
    · left; rfl
  · apply ne_some_ok_of
    rw [bcd_to_str_err]
    split
    · right; right; rfl
    · split
      · right; left; rfl
      · left; rfl
  · apply ne_some_ok_of
    rw [bcd_add_err]
    split
    · split
      · left; rfl
      · right; right; rfl
    · right; left; rfl
  · apply ne_some_ok_of
    rw [bcd_multiply_err]
    split
    · split
      · right; right; rfl
      · left; rfl
    · right; left; rfl
  · intro hv
    rw [errSlotAfter, binary_to_bcd_err, if_neg (by omega)]
    rfl
  · intro hvb
    rw [errSlotAfter, bcd_to_binary_err, if_pos hvb]
    rfl
  · intro hlt
    rw [errSlotAfter, str_to_bcd_err, if_neg (by omega)]
    rfl
  · intro hvx hvy hlt
    have hgo := bcdAddGo_correct D x y 0 hvx hvy (by omega)
    simp only [Nat.add_zero] at hgo
    have hc : (bcdAddGo x y 0 D).2 = 0 := by
      rw [hgo]
      exact Nat.div_eq_of_lt hlt
    rw [errSlotAfter, bcd_add_err, if_pos ⟨hvx, hvy⟩, if_pos hc]
    rfl
  · intro hvx hvy hlt
    rw [errSlotAfter, bcd_multiply_err, if_pos ⟨hvx, hvy⟩,
      if_neg (by rw [mulAcc_eq]; omega)]
    rfl
  · intro hbuf hsig
    rw [errSlotAfter, bcd_to_str_err,
      if_neg (by simp only [BCD_BUF_SIZE] at hbuf ⊢; omega),
      if_neg (not_not_intro hsig)]
    rfl

theorem c10_error_slot_witness :
    (binary_to_bcd 4 123).2 ≠ some OK_ERR ∧
    errSlotAfter (binary_to_bcd 4 123).2 OVERFLOW_ERR = OVERFLOW_ERR := by
  have h := c10_error_slot 4 123 0 0 0 5 [] OVERFLOW_ERR
  exact ⟨h.1, h.2.2.2.2.2.2.1 (by decide)⟩
